import Mathlib

/-!
Verification of a small Redis-like in-memory key-value server against its
specification, via a shallow embedding of the Rust sources into Lean:

* `src/resp.rs`            — the RESP codec (`RespValue`, `read_resp`, `write_resp`);
* `src/storage.rs`         — the storage engine (`Storage` and its operations);
* `src/command.rs`         — the typed command model (`Command`, `TryFrom<RespValue>`);
* `src/command_handler.rs` — the command executor (`handle_command`).

Modelling conventions:

* The byte stream is modelled as `List Char`: the sources hold UTF-8 `String`s
  and the codec's length prefixes count `s.len()`; we measure lengths in
  scalar values (`String.length`), which is faithful for every property at
  issue here (framing, terminators, round-trips) — none of the claims depends
  on the byte width of an individual character, and `String::from_utf8` on the
  modelled stream always succeeds, as it does on any encoded `String`.
* `u64` values are `Nat` with arithmetic reduced mod `2 ^ 64` where the source
  can wrap; `i64` values are `Int`, with the range `[-2 ^ 63, 2 ^ 63 - 1]`
  enforced exactly where the source enforces it (`parse::<i64>`, `try_into`).
* A panic (a failing `unwrap`, or an out-of-range `try_into`) is modelled by
  `none` / a dedicated result, never by a default value.
* `SystemTime::now()` (whole seconds since the epoch) is passed in explicitly
  as a parameter `now : Nat`.
* The unbounded recursion of the Rust decoder is modelled with an explicit
  fuel parameter; every theorem supplies fuel that provably suffices, so the
  fuel-exhaustion branch is never observed.
* Rust `HashMap<String, _>` is modelled as an association list with unique
  keys: `insert` replaces, `remove` deletes, `lookup` finds.
-/

namespace Rrrr

/-! ## The RESP value type (src/resp.rs, `RespValue`) -/

inductive RespValue where
  | SimpleString (s : String)
  | Error (s : String)
  | Integer (n : Int)
  | BulkString (s : Option String)
  | Array (vs : Option (List RespValue))
deriving Repr

inductive RespError where
  | IoError
  | ParseError (s : String)
  | InvalidLength
  | InvalidUtf8
deriving Repr, DecidableEq

/-! ## Encoding (src/resp.rs, `write_resp`)

`write_resp` writes to an infallible in-memory buffer in every use relevant
here, so it is modelled as a pure function to the emitted character list. -/

def CRLF : List Char := ['\r', '\n']

def natDigitChar (n : Nat) : Char := Char.ofNat (48 + n)

/-- Decimal digits of `n`, most significant first; the fuel argument only
makes the recursion structural and never runs out for `fuel ≥ n`. -/
def natDigitsAux : Nat → Nat → List Char
  | 0, n => [natDigitChar (n % 10)]
  | fuel+1, n =>
    if n < 10 then [natDigitChar n]
    else natDigitsAux fuel (n / 10) ++ [natDigitChar (n % 10)]

def natDigits (n : Nat) : List Char := natDigitsAux n n

/-- Rust's `i64::to_string` / `u64::to_string`: decimal, `-`-prefixed when
negative. -/
def intChars (n : Int) : List Char :=
  if n < 0 then '-' :: natDigits n.natAbs else natDigits n.toNat

mutual

def encodeVal : RespValue → List Char
  | .SimpleString s => '+' :: (s.data ++ CRLF)
  | .Error s => '-' :: (s.data ++ CRLF)
  | .Integer n => ':' :: (intChars n ++ CRLF)
  | .BulkString none => '$' :: ('-' :: '1' :: CRLF)
  | .BulkString (some s) => '$' :: (natDigits s.length ++ CRLF ++ s.data ++ CRLF)
  | .Array none => '*' :: ('-' :: '1' :: CRLF)
  | .Array (some vs) => '*' :: (natDigits vs.length ++ CRLF ++ encodeList vs)

def encodeList : List RespValue → List Char
  | [] => []
  | v :: vs => encodeVal v ++ encodeList vs

end

/-! ## Decoding (src/resp.rs, `read_resp` and helpers) -/

/-- `BufRead::read_line`: consume up to and including the first `'\n'`
(everything to the end of input when there is none). -/
def readRawLine : List Char → List Char × List Char
  | [] => ([], [])
  | c :: cs =>
    if c = '\n' then ([c], cs)
    else
      let p := readRawLine cs
      (c :: p.1, p.2)

/-- `str::trim_end_matches("\r\n")` on a reversed character list: drop every
trailing (here: leading) occurrence of the pair. -/
def stripCrlfRev : List Char → List Char
  | c₁ :: c₂ :: rest =>
    if c₁ = '\n' ∧ c₂ = '\r' then stripCrlfRev rest else c₁ :: c₂ :: rest
  | l => l

def trimEndCrlf (l : List Char) : List Char := (stripCrlfRev l.reverse).reverse

/-- `read_line` in src/resp.rs: read one raw line, then
`trim_end_matches("\r\n")`.  Note that it never checks that the terminator
was actually present. -/
def read_line (input : List Char) : List Char × List Char :=
  let p := readRawLine input
  (trimEndCrlf p.1, p.2)

def digitVal? (c : Char) : Option Nat :=
  if '0' ≤ c ∧ c ≤ '9' then some (c.toNat - 48) else none

def parseDigits : Nat → List Char → Option Nat
  | acc, [] => some acc
  | acc, c :: cs =>
    match digitVal? c with
    | some d => parseDigits (10 * acc + d) cs
    | none => none

def parseNat? : List Char → Option Nat
  | [] => none
  | cs => parseDigits 0 cs

def i64Max : Int := 2 ^ 63 - 1

/-- Rust's `str::parse::<i64>`: an optional sign, then at least one decimal
digit and nothing else, rejecting values outside `[-2 ^ 63, 2 ^ 63 - 1]`.
(Rust checks the bound while accumulating; on all-digit input that accepts
and rejects exactly the same strings as accumulating first and comparing.) -/
def parseI64? (l : List Char) : Option Int :=
  match l with
  | [] => none
  | c :: rest =>
    if c = '+' then
      (parseNat? rest).bind fun m => if (m : Int) ≤ i64Max then some (m : Int) else none
    else if c = '-' then
      (parseNat? rest).bind fun m => if (m : Int) ≤ 2 ^ 63 then some (-(m : Int)) else none
    else
      (parseNat? (c :: rest)).bind fun m =>
        if (m : Int) ≤ i64Max then some (m : Int) else none

def read_simple_string (input : List Char) : Except RespError (RespValue × List Char) :=
  let p := read_line input
  .ok (.SimpleString (String.mk p.1), p.2)

def read_error (input : List Char) : Except RespError (RespValue × List Char) :=
  let p := read_line input
  .ok (.Error (String.mk p.1), p.2)

def read_integer (input : List Char) : Except RespError (RespValue × List Char) :=
  let p := read_line input
  match parseI64? p.1 with
  | some n => .ok (.Integer n, p.2)
  | none => .error (.ParseError "Invalid integer")

def read_bulk_string (input : List Char) : Except RespError (RespValue × List Char) :=
  let p := read_line input
  match parseI64? p.1 with
  | none => .error (.ParseError "Invalid bulk string length")
  | some len =>
    if len = -1 then .ok (.BulkString none, p.2)
    else if len < 0 then .error (.ParseError "Invalid bulk string length")
    else
      let n := len.toNat
      if n + 2 ≤ p.2.length then
        let buf := p.2.take (n + 2)
        if buf.drop n = CRLF then
          .ok (.BulkString (some (String.mk (buf.take n))), p.2.drop (n + 2))
        else .error (.ParseError "Missing CRLF")
      else .error .IoError

mutual

/-- `read_resp`: dispatch on the tag byte.  The `'*'` branch inlines
`read_array` from src/resp.rs (length line, `-1` null sentinel, then that
many recursively decoded elements); the fuel ticks down once per decoded
value so that the recursion is structural. -/
def read_resp : Nat → List Char → Except RespError (RespValue × List Char)
  | _, [] => .error .IoError
  | 0, _ :: _ => .error (.ParseError "recursion limit")
  | fuel+1, c :: cs =>
    if c = '+' then read_simple_string cs
    else if c = '-' then read_error cs
    else if c = ':' then read_integer cs
    else if c = '$' then read_bulk_string cs
    else if c = '*' then
      let p := read_line cs
      match parseI64? p.1 with
      | none => .error (.ParseError "Invalid array length")
      | some len =>
        if len = -1 then .ok (.Array none, p.2)
        else if len < 0 then .error (.ParseError "Invalid array length")
        else
          match readElems fuel len.toNat p.2 with
          | .ok q => .ok (.Array (some q.1), q.2)
          | .error e => .error e
    else .error (.ParseError ("Invalid RESP type byte: " ++ String.mk [c]))

def readElems : Nat → Nat → List Char → Except RespError (List RespValue × List Char)
  | _, 0, input => .ok ([], input)
  | 0, _+1, _ => .error (.ParseError "recursion limit")
  | fuel+1, n+1, input =>
    match read_resp fuel input with
    | .error e => .error e
    | .ok (v, rest) =>
      match readElems fuel n rest with
      | .error e => .error e
      | .ok (vs, rest2) => .ok (v :: vs, rest2)

end

/-- One full decode of a stream, with fuel that (provably) suffices for any
value the stream can contain: the decoder consumes input as it recurses. -/
def decodeResp (input : List Char) : Except RespError (RespValue × List Char) :=
  read_resp (input.length + 1) input

/-- `decode(encode(v))` as a value-level function: the decoded value, when
decoding succeeds. -/
def decodeVal (input : List Char) : Option RespValue :=
  match decodeResp input with
  | .ok p => some p.1
  | .error _ => none

/-! ## The storage engine (src/storage.rs)

`HashMap<String, String>` / `HashMap<String, u64>` are modelled as
association lists with unique keys.  `SystemTime::now(...).as_secs()` is the
explicit parameter `now`. -/

def eraseKey {α : Type} (key : String) (m : List (String × α)) : List (String × α) :=
  m.filter fun p => p.1 ≠ key

def insertKey {α : Type} (key : String) (v : α) (m : List (String × α)) :
    List (String × α) :=
  (key, v) :: eraseKey key m

structure Storage where
  data : List (String × String)
  expires : List (String × Nat)
deriving Repr

def Storage.new : Storage := ⟨[], []⟩

/-- `Storage::get`: when the key has an expiry entry strictly in the past,
remove the key from `data` (only!) and return `None`; otherwise look the key
up in `data`.  Returns the value together with the updated storage. -/
def Storage.get (st : Storage) (now : Nat) (key : String) :
    Option String × Storage :=
  match st.expires.lookup key with
  | some expire =>
    if expire < now then (none, { st with data := eraseKey key st.data })
    else (st.data.lookup key, st)
  | none => (st.data.lookup key, st)

/-- `Storage::set`: insert or overwrite in `data`; `expires` is untouched. -/
def Storage.set (st : Storage) (key value : String) : Storage :=
  { st with data := insertKey key value st.data }

/-- `Storage::set_expire`: a negative `expire` deletes the key from both
maps; otherwise the deadline `now + expire as u64` (u64 addition, reduced
mod `2 ^ 64` as in a release build) overwrites any previous one. -/
def Storage.set_expire (st : Storage) (now : Nat) (key : String) (expire : Int) :
    Storage :=
  if expire < 0 then ⟨eraseKey key st.data, eraseKey key st.expires⟩
  else { st with expires := insertKey key ((now + expire.toNat) % 2 ^ 64) st.expires }

/-- `Storage::has`: membership in `data` alone — no expiry check. -/
def Storage.has (st : Storage) (key : String) : Bool :=
  (st.data.lookup key).isSome

/-- `Storage::get_ttl`: `-2` when `has` is false, `-1` when no expiry entry,
otherwise `(*expire - now).try_into().unwrap()` — u64 subtraction (wrapping,
as in a release build; a debug build panics on the underflow itself) followed
by a `try_into::<i64>().unwrap()` that panics when the wrapped difference
exceeds `i64::MAX`.  `none` models the panic. -/
def Storage.get_ttl (st : Storage) (now : Nat) (key : String) : Option Int :=
  if ¬ st.has key then some (-2)
  else
    match st.expires.lookup key with
    | some expire =>
      let d : Nat := (expire + 2 ^ 64 - now) % 2 ^ 64
      if d ≤ 2 ^ 63 - 1 then some (d : Int) else none
    | none => some (-1)

/-- `Storage::del`: remove from `data` only. -/
def Storage.del (st : Storage) (key : String) : Storage :=
  { st with data := eraseKey key st.data }

/-- `Storage::clear`: `self.data.clear()` — `expires` is NOT cleared. -/
def Storage.clear (st : Storage) : Storage :=
  { st with data := [] }

/-! ## The typed command model (src/command.rs) -/

inductive Command where
  | Get (key : String)
  | MGet (keys : List String)
  | Set (key value : String)
  | Del (keys : List String)
  | IncrBy (key value : String)
  | Incr (key : String)
  | DecrBy (key value : String)
  | Decr (key : String)
  | Exists (keys : List String)
  | Expire (key expire : String)
  | TTL (key : String)
  | Ping
  | CommandDocs
  | FlushAll
deriving Repr, DecidableEq

inductive CommandError where
  | WrongNumberOfArguments (cmd : String) (expected got : Nat)
  | ParseError (s : String)
  | UnknownCommand (cmd : String)
deriving Repr, DecidableEq

/-- `extract_string`: accept `BulkString(Some _)` or `SimpleString`. -/
def extract_string : RespValue → Except CommandError String
  | .BulkString (some s) => .ok s
  | .SimpleString s => .ok s
  | _ => .error (.ParseError "expected string")

/-- `str::to_uppercase`; command names are ASCII, where Rust's Unicode
uppercasing and per-character ASCII uppercasing agree. -/
def strUpper (s : String) : String := String.mk (s.data.map Char.toUpper)

/-- The dispatch on the (already uppercased) command name, given the full
element list `arr` (so `arr.length` is Rust's `array.len()`). -/
def dispatchCommand (name : String) (arr : List RespValue) :
    Except CommandError Command :=
  if name = "GET" then
    if arr.length ≠ 2 then .error (.WrongNumberOfArguments "GET" 2 arr.length)
    else do
      let key ← extract_string (arr.getD 1 (.BulkString none))
      .ok (.Get key)
  else if name = "MGET" then
    if arr.length < 2 then .error (.WrongNumberOfArguments "MGET" 2 arr.length)
    else do
      let keys ← (arr.drop 1).mapM extract_string
      .ok (.MGet keys)
  else if name = "SET" then
    if arr.length ≠ 3 then .error (.WrongNumberOfArguments "SET" 3 arr.length)
    else do
      let key ← extract_string (arr.getD 1 (.BulkString none))
      let value ← extract_string (arr.getD 2 (.BulkString none))
      .ok (.Set key value)
  else if name = "INCRBY" then
    if arr.length ≠ 3 then .error (.WrongNumberOfArguments "INCRBY" 3 arr.length)
    else do
      let key ← extract_string (arr.getD 1 (.BulkString none))
      let value ← extract_string (arr.getD 2 (.BulkString none))
      .ok (.IncrBy key value)
  else if name = "INCR" then
    if arr.length ≠ 2 then .error (.WrongNumberOfArguments "INCR" 2 arr.length)
    else do
      let key ← extract_string (arr.getD 1 (.BulkString none))
      .ok (.Incr key)
  else if name = "DECRBY" then
    if arr.length ≠ 3 then .error (.WrongNumberOfArguments "DECRBY" 3 arr.length)
    else do
      let key ← extract_string (arr.getD 1 (.BulkString none))
      let value ← extract_string (arr.getD 2 (.BulkString none))
      .ok (.DecrBy key value)
  else if name = "DECR" then
    if arr.length ≠ 2 then .error (.WrongNumberOfArguments "DECR" 2 arr.length)
    else do
      let key ← extract_string (arr.getD 1 (.BulkString none))
      .ok (.Decr key)
  else if name = "DEL" then
    if arr.length < 2 then .error (.WrongNumberOfArguments "DEL" 2 arr.length)
    else do
      let keys ← (arr.drop 1).mapM extract_string
      .ok (.Del keys)
  else if name = "PING" then
    if arr.length ≠ 1 then .error (.WrongNumberOfArguments "PING" 1 arr.length)
    else .ok .Ping
  else if name = "COMMAND" then
    if arr.length ≠ 2 then .error (.WrongNumberOfArguments "COMMAND" 2 arr.length)
    else .ok .CommandDocs
  else if name = "EXISTS" then
    if arr.length < 2 then .error (.WrongNumberOfArguments "EXISTS" 2 arr.length)
    else do
      let keys ← (arr.drop 1).mapM extract_string
      .ok (.Exists keys)
  else if name = "EXPIRE" then
    if arr.length ≠ 3 then .error (.WrongNumberOfArguments "EXPIRE" 3 arr.length)
    else do
      let key ← extract_string (arr.getD 1 (.BulkString none))
      let expire ← extract_string (arr.getD 2 (.BulkString none))
      .ok (.Expire key expire)
  else if name = "TTL" then
    if arr.length ≠ 2 then .error (.WrongNumberOfArguments "TTL" 2 arr.length)
    else do
      let key ← extract_string (arr.getD 1 (.BulkString none))
      .ok (.TTL key)
  else if name = "FLUSHALL" then
    if arr.length ≠ 1 then .error (.WrongNumberOfArguments "FLUSHALL" 1 arr.length)
    else .ok .FlushAll
  else .error (.UnknownCommand name)

/-- `TryFrom<RespValue> for Command`: only a non-null, non-empty Array is
accepted, and the command name (first element) must be `BulkString(Some _)`
— a `SimpleString` name is rejected. -/
def Command.tryFrom : RespValue → Except CommandError Command
  | .Array (some arr) =>
    match arr with
    | [] => .error (.ParseError "empty command")
    | first :: _ =>
      match first with
      | .BulkString (some s) => dispatchCommand (strUpper s) arr
      | _ => .error (.ParseError "command name must be a bulk string")
  | _ => .error (.ParseError "expected array")

/-! ## The command executor (src/command_handler.rs)

`handle_command` returns `none` when execution panics (the only reachable
panic with the release-build arithmetic model is `Storage::get_ttl`'s failing
`try_into().unwrap()`).  i64 addition/subtraction in the numeric commands is
modelled as release-build wrapping arithmetic (`i64wrap`); a debug build
would instead panic at the same inputs. -/

def i64wrap (n : Int) : Int := (n + 2 ^ 63) % 2 ^ 64 - 2 ^ 63

/-- `handle_numeric_operation`: parse the increment, read the current value
(`"0"` when absent), parse it, apply the operation, store the decimal result. -/
def handle_numeric_operation (st : Storage) (now : Nat) (key : String)
    (value : Option Int) (operation : Int → Int → Int) :
    Except String Int × Storage :=
  match value with
  | none => (.error "ERR value is not an integer or out of range", st)
  | some v =>
    let p := st.get now key
    let current := p.1.getD "0"
    match parseI64? current.data with
    | none => (.error "ERR value is not an integer or out of range", p.2)
    | some n =>
      let newValue := operation n v
      (.ok newValue, p.2.set key (String.mk (intChars newValue)))

/-- The `MGet` loop: `keys.iter().map(|key| ...storage.get...)`, threading
the storage (each `get` may prune an expired key). -/
def mgetLoop (st : Storage) (now : Nat) : List String → List RespValue × Storage
  | [] => ([], st)
  | k :: ks =>
    let p := st.get now k
    let v : RespValue := .BulkString p.1
    let q := mgetLoop p.2 now ks
    (v :: q.1, q.2)

def handle_command (cmd : Command) (st : Storage) (now : Nat) :
    Option (RespValue × Storage) :=
  match cmd with
  | .Ping => some (.SimpleString "PONG", st)
  | .Get key =>
    let p := st.get now key
    some (.BulkString p.1, p.2)
  | .Set key value => some (.SimpleString "OK", st.set key value)
  | .Del keys => some (.SimpleString "OK", keys.foldl (fun s k => s.del k) st)
  | .CommandDocs => some (.SimpleString "OK", st)
  | .IncrBy key value =>
    match handle_numeric_operation st now key (parseI64? value.data)
        (fun n incr => i64wrap (n + incr)) with
    | (.ok newValue, st') => some (.Integer newValue, st')
    | (.error msg, st') => some (.Error msg, st')
  | .Incr key =>
    match handle_numeric_operation st now key (some 1)
        (fun n _ => i64wrap (n + 1)) with
    | (.ok newValue, st') => some (.Integer newValue, st')
    | (.error msg, st') => some (.Error msg, st')
  | .DecrBy key value =>
    match handle_numeric_operation st now key (parseI64? value.data)
        (fun n decr => i64wrap (n - decr)) with
    | (.ok newValue, st') => some (.Integer newValue, st')
    | (.error msg, st') => some (.Error msg, st')
  | .Decr key =>
    match handle_numeric_operation st now key (some 1)
        (fun n _ => i64wrap (n - 1)) with
    | (.ok newValue, st') => some (.Integer newValue, st')
    | (.error msg, st') => some (.Error msg, st')
  | .MGet keys =>
    let q := mgetLoop st now keys
    if q.1.length = 1 then some (q.1.getD 0 (.BulkString none), q.2)
    else some (.Array (some q.1), q.2)
  | .FlushAll => some (.SimpleString "OK", st.clear)
  | .Exists keys =>
    some (.Integer ((keys.filter fun k => st.has k).length : Int), st)
  | .Expire key expire =>
    match parseI64? expire.data with
    | none => some (.Error "value is not an integer or out of range", st)
    | some ttl =>
      if ¬ st.has key then some (.SimpleString "0", st)
      else some (.SimpleString "1", st.set_expire now key ttl)
  | .TTL key =>
    match st.get_ttl now key with
    | some ttl => some (.Integer ttl, st)
    | none => none

/-- The spec's notion of a key holding a live value: present in the value
mapping and not past its expiry deadline.  Stated from the spec's words to
compare against `Storage.has`. -/
def liveValueExists (st : Storage) (now : Nat) (key : String) : Bool :=
  (st.data.lookup key).isSome &&
    match st.expires.lookup key with
    | some e => ! decide (e < now)
    | none => true

/-! ## Association-list lemmas -/

theorem eraseKey_cons_of_eq {α : Type} (key : String) (p : String × α)
    (m : List (String × α)) (h : p.1 = key) :
    eraseKey key (p :: m) = eraseKey key m := by
  simp [eraseKey, List.filter_cons, h]

theorem eraseKey_cons_of_ne {α : Type} (key : String) (p : String × α)
    (m : List (String × α)) (h : p.1 ≠ key) :
    eraseKey key (p :: m) = p :: eraseKey key m := by
  simp [eraseKey, List.filter_cons, h]

theorem lookup_eraseKey_self {α : Type} (key : String) (m : List (String × α)) :
    (eraseKey key m).lookup key = none := by
  induction m with
  | nil => rfl
  | cons p m ih =>
    by_cases h : p.1 = key
    · rw [eraseKey_cons_of_eq key p m h]
      exact ih
    · have hb : (key == p.1) = false := by
        simp only [beq_eq_false_iff_ne, ne_eq]
        exact fun e => h e.symm
      rw [eraseKey_cons_of_ne key p m h]
      simpa [List.lookup, hb] using ih

theorem lookup_eraseKey_ne {α : Type} (key key' : String) (m : List (String × α))
    (h : key' ≠ key) : (eraseKey key m).lookup key' = m.lookup key' := by
  induction m with
  | nil => rfl
  | cons p m ih =>
    by_cases hp : p.1 = key
    · rw [eraseKey_cons_of_eq key p m hp, ih]
      have hb : (key' == p.1) = false := by
        simp only [beq_eq_false_iff_ne, ne_eq, hp]
        exact h
      simp [List.lookup, hb]
    · rw [eraseKey_cons_of_ne key p m hp]
      cases hb : key' == p.1
      · simp [List.lookup, hb, ih]
      · simp [List.lookup, hb]

theorem lookup_insertKey_self {α : Type} (key : String) (v : α)
    (m : List (String × α)) : (insertKey key v m).lookup key = some v := by
  simp [insertKey, List.lookup]

theorem lookup_insertKey_ne {α : Type} (key key' : String) (v : α)
    (m : List (String × α)) (h : key' ≠ key) :
    (insertKey key v m).lookup key' = m.lookup key' := by
  have hb : (key' == key) = false := by simp only [beq_eq_false_iff_ne, ne_eq]; exact h
  simp [insertKey, List.lookup, hb, lookup_eraseKey_ne key key' m h]

/-! ## Claims about the storage engine -/

/-- C2: refuted — the claim says no command execution on a valid typed
command panics, but executing `TTL t` in a state whose key `t` is present
with a past-due expiry deadline panics inside `Storage::get_ttl`
(`(*expire - now)` underflows as `u64` and the subsequent
`try_into::<i64>().unwrap()` fails): the execution aborts instead of
returning an `Error` value. -/
theorem c2_execute_ttl_panics :
    handle_command (.TTL "t") ⟨[("t", "v")], [("t", 3)]⟩ 9 = none := rfl

/-- C3: counterexample — `get` on the expired key `"k"` returns absent and
removes it from the value mapping, but the expiry mapping still contains it,
refuting "removes the key from both the value mapping and the expiry
mapping". -/
theorem c3_get_counterexample :
    (Storage.get ⟨[("k", "v")], [("k", 7)]⟩ 10 "k").1 = none ∧
    ((Storage.get ⟨[("k", "v")], [("k", 7)]⟩ 10 "k").2).expires.lookup "k" = some 7 :=
  ⟨rfl, rfl⟩

/-- C3 (amended): for every key whose expiry deadline has passed, `get`
returns absent and removes the key from the value mapping only — the expiry
entry is retained; for every key with no expiry or an unexpired expiry,
`get` returns the stored value if present and leaves the storage unchanged. -/
theorem c3_get_amended (st : Storage) (now : Nat) (key : String) :
    (∀ e, st.expires.lookup key = some e → e < now →
      (st.get now key).1 = none ∧
      ((st.get now key).2).data.lookup key = none ∧
      ((st.get now key).2).expires = st.expires) ∧
    ((∀ e, st.expires.lookup key = some e → ¬ e < now) →
      st.get now key = (st.data.lookup key, st)) := by
  constructor
  · intro e he hlt
    simp [Storage.get, he, hlt, lookup_eraseKey_self]
  · intro h
    cases hx : st.expires.lookup key with
    | some e => simp [Storage.get, hx, h e hx]
    | none => simp [Storage.get, hx]

/-- Witness for `c3_get_amended` at a concrete expired key. -/
theorem c3_get_amended_witness :
    (Storage.get ⟨[("a", "1")], [("a", 3)]⟩ 5 "a").1 = none ∧
    ((Storage.get ⟨[("a", "1")], [("a", 3)]⟩ 5 "a").2).data.lookup "a" = none ∧
    ((Storage.get ⟨[("a", "1")], [("a", 3)]⟩ 5 "a").2).expires = [("a", 3)] :=
  (c3_get_amended ⟨[("a", "1")], [("a", 3)]⟩ 5 "a").1 3 rfl (by decide)

/-- C4: counterexample — `clear` on a state with a non-empty expiry mapping
leaves the expiry mapping non-empty, refuting "after clear() both mappings
are empty". -/
theorem c4_clear_counterexample :
    (Storage.clear ⟨[("a", "v")], [("a", 3)]⟩).expires ≠ [] := by
  decide

/-- C4 (amended): `clear()` (invoked by FlushAll) empties the value mapping
only — the expiry mapping is left as it was — and `has(k)` is false for
every key `k` afterwards. -/
theorem c4_clear_amended (st : Storage) (key : String) :
    (st.clear).data = [] ∧ (st.clear).expires = st.expires ∧
    st.clear.has key = false := by
  exact ⟨rfl, rfl, rfl⟩

/-- C5: counterexample — key `"k"` is past its deadline (so no live value
exists) yet `has` still answers `true`: `has` applies no lazy-expiry check. -/
theorem c5_has_counterexample :
    Storage.has ⟨[("k", "v")], [("k", 2)]⟩ "k" ≠
      liveValueExists ⟨[("k", "v")], [("k", 2)]⟩ 10 "k" := by
  decide

/-- C5 (amended): `has(key)` returns true iff the key is present in the
value mapping, with no expiry check at all; consequently Exists over a list
of keys counts exactly the keys present in the value mapping (expired but
not-yet-observed keys included). -/
theorem c5_has_amended :
    (∀ (st : Storage) (key : String), st.has key = (st.data.lookup key).isSome) ∧
    (∀ (st : Storage) (now : Nat) (keys : List String),
      handle_command (.Exists keys) st now =
        some (.Integer ((keys.filter fun k => (st.data.lookup k).isSome).length : Int),
          st)) := by
  refine ⟨fun st key => rfl, fun st now keys => ?_⟩
  simp [handle_command, Storage.has]

/-- C6: refuted — for a key present in the value mapping whose expiry
deadline has passed, the claim requires `get_ttl` to return `-2`, but the
code panics: `(*expire - now)` underflows as `u64` and
`try_into::<i64>().unwrap()` aborts. -/
theorem c6_get_ttl_panics :
    Storage.get_ttl ⟨[("x", "1")], [("x", 5)]⟩ 10 "x" = none := rfl

/-- C10: for every key whose entry in the expiry mapping is past due,
`set(k, v)` followed by `get(k)` returns `None`: `set` writes only the value
mapping, so the freshly stored value is immediately treated as expired. -/
theorem c10_set_then_get_expired (st : Storage) (now : Nat) (key value : String)
    (e : Nat) (he : st.expires.lookup key = some e) (hlt : e < now) :
    ((st.set key value).get now key).1 = none := by
  simp [Storage.set, Storage.get, he, hlt]

/-- Witness for `c10_set_then_get_expired`. -/
theorem c10_set_then_get_expired_witness :
    ((Storage.set ⟨[], [("k", 0)]⟩ "k" "w").get 1 "k").1 = none :=
  c10_set_then_get_expired ⟨[], [("k", 0)]⟩ 1 "k" "w" 0 rfl (by decide)

/-- Observability of `get` is stable under a preceding `get`: the only state
change a `get` can make is pruning an expired key from the value mapping,
which never changes what a later `get` returns. -/
theorem get_fst_stable (st : Storage) (now : Nat) (k k' : String) :
    (((st.get now k).2).get now k').1 = (st.get now k').1 := by
  by_cases hk : ∃ e, st.expires.lookup k = some e ∧ e < now
  · obtain ⟨e, he, hlt⟩ := hk
    have h2 : (st.get now k).2 = { st with data := eraseKey k st.data } := by
      simp [Storage.get, he, hlt]
    rw [h2]
    cases he' : st.expires.lookup k' with
    | some e' =>
      by_cases hlt' : e' < now
      · simp [Storage.get, he', hlt']
      · simp only [Storage.get, he', hlt', if_neg]
        have hne : k' ≠ k := by
          intro hkk
          rw [hkk, he] at he'
          have : e = e' := by injection he'
          omega
        simp [lookup_eraseKey_ne k k' st.data hne]
    | none =>
      have hne : k' ≠ k := by
        intro hkk
        rw [hkk, he] at he'
        cases he'
      simp [Storage.get, he', lookup_eraseKey_ne k k' st.data hne]
  · have h2 : (st.get now k).2 = st := by
      cases he : st.expires.lookup k with
      | some e =>
        have hge : ¬ e < now := fun hlt => hk ⟨e, he, hlt⟩
        simp [Storage.get, he, hge]
      | none => simp [Storage.get, he]
    rw [h2]

/-- The `MGet` loop produces exactly one reply per requested key, in request
order, each the `BulkString` of what `get` observes in the initial state. -/
theorem mgetLoop_fst (st : Storage) (now : Nat) (keys : List String) :
    (mgetLoop st now keys).1 =
      keys.map fun k => RespValue.BulkString (st.get now k).1 := by
  induction keys generalizing st with
  | nil => rfl
  | cons k ks ih =>
    simp only [mgetLoop, List.map_cons]
    refine congrArg₂ List.cons rfl ?_
    rw [ih ((st.get now k).2)]
    exact List.map_congr_left fun x _ => congrArg _ (get_fst_stable st now k x)

/-- C9: for a key list of length at least two, `MGet` replies with an Array
holding one `BulkString` per requested key in request order (`BulkString`
of `None` for absent keys); for a single-key list the single `BulkString`
is returned unwrapped instead of as a one-element Array. -/
theorem c9_mget (st : Storage) (now : Nat) (keys : List String) :
    (2 ≤ keys.length →
      (handle_command (.MGet keys) st now).map Prod.fst =
        some (.Array (some (keys.map fun k => .BulkString (st.get now k).1)))) ∧
    (∀ k, keys = [k] →
      (handle_command (.MGet keys) st now).map Prod.fst =
        some (.BulkString (st.get now k).1)) := by
  constructor
  · intro h2
    have hl : (mgetLoop st now keys).1.length = keys.length := by
      rw [mgetLoop_fst]; exact List.length_map keys _
    have hne : ¬ (mgetLoop st now keys).1.length = 1 := by omega
    simp only [handle_command, hne, if_false, if_neg hne, Option.map_some]
    rw [mgetLoop_fst]
    rfl
  · rintro k rfl
    simp [handle_command, mgetLoop]

/-- Witness for `c9_mget`: both the two-key and the one-key shapes at
concrete inputs. -/
theorem c9_mget_witness :
    ((handle_command (.MGet ["a", "b"]) ⟨[("a", "x")], []⟩ 0).map Prod.fst =
      some (.Array (some (["a", "b"].map fun k =>
        .BulkString ((Storage.get ⟨[("a", "x")], []⟩ 0 k).1)))) ∧
     (handle_command (.MGet ["a"]) ⟨[("a", "x")], []⟩ 0).map Prod.fst =
      some (.BulkString ((Storage.get ⟨[("a", "x")], []⟩ 0 "a").1))) :=
  ⟨(c9_mget ⟨[("a", "x")], []⟩ 0 ["a", "b"]).1 (by decide),
   (c9_mget ⟨[("a", "x")], []⟩ 0 ["a"]).2 "a" rfl⟩

/-! ## Claims about the command model -/

/-- The spec's string-bearing variants: `SimpleString` or a non-null
`BulkString`. -/
def stringBearing : RespValue → Bool
  | .SimpleString _ => true
  | .BulkString (some _) => true
  | _ => false

theorem extract_string_ok (v : RespValue) (h : stringBearing v = true) :
    ∃ s, extract_string v = .ok s := by
  cases v with
  | SimpleString s => exact ⟨s, rfl⟩
  | BulkString o =>
    cases o with
    | some s => exact ⟨s, rfl⟩
    | none => simp [stringBearing] at h
  | Error s => simp [stringBearing] at h
  | Integer n => simp [stringBearing] at h
  | Array vs => simp [stringBearing] at h

theorem extract_string_err (v : RespValue) (h : stringBearing v = false) :
    extract_string v = .error (.ParseError "expected string") := by
  cases v with
  | SimpleString s => simp [stringBearing] at h
  | BulkString o =>
    cases o with
    | some s => simp [stringBearing] at h
    | none => rfl
  | Error s => rfl
  | Integer n => rfl
  | Array vs => rfl

theorem mapM_extract_ok (l : List RespValue)
    (h : ∀ v ∈ l, stringBearing v = true) :
    ∃ ss, l.mapM extract_string = Except.ok ss := by
  induction l with
  | nil => exact ⟨[], rfl⟩
  | cons v l ih =>
    obtain ⟨s, hs⟩ := extract_string_ok v (h v (List.mem_cons_self v l))
    obtain ⟨ss, hss⟩ := ih fun x hx => h x (List.mem_cons_of_mem v hx)
    refine ⟨s :: ss, ?_⟩
    rw [List.mapM_cons, hs, hss]
    rfl

theorem mapM_extract_err (l : List RespValue)
    (h : ¬ ∀ v ∈ l, stringBearing v = true) :
    l.mapM extract_string = Except.error (.ParseError "expected string") := by
  induction l with
  | nil => exact absurd (by intro v hv; cases hv) h
  | cons v l ih =>
    cases hv : stringBearing v with
    | true =>
      obtain ⟨s, hs⟩ := extract_string_ok v hv
      have h' : ¬ ∀ x ∈ l, stringBearing x = true := by
        intro hall
        refine h fun x hx => ?_
        rcases List.mem_cons.mp hx with rfl | hx'
        · exact hv
        · exact hall x hx'
      rw [List.mapM_cons, hs, ih h']
      rfl
    | false =>
      rw [List.mapM_cons, extract_string_err v hv]
      rfl

/-- The command families known to `dispatchCommand`, with the element count
(command name included) each accepts. -/
def knownArity (name : String) (len : Nat) : Prop :=
  (name = "GET" ∧ len = 2) ∨ (name = "MGET" ∧ 2 ≤ len) ∨ (name = "SET" ∧ len = 3) ∨
  (name = "INCRBY" ∧ len = 3) ∨ (name = "INCR" ∧ len = 2) ∨
  (name = "DECRBY" ∧ len = 3) ∨ (name = "DECR" ∧ len = 2) ∨
  (name = "DEL" ∧ 2 ≤ len) ∨ (name = "PING" ∧ len = 1) ∨
  (name = "COMMAND" ∧ len = 2) ∨ (name = "EXISTS" ∧ 2 ≤ len) ∨
  (name = "EXPIRE" ∧ len = 3) ∨ (name = "TTL" ∧ len = 2) ∨
  (name = "FLUSHALL" ∧ len = 1)

theorem exbind_ok {ε α β : Type} (a : α) (f : α → Except ε β) :
    (Except.ok a >>= f) = f a := rfl

theorem exbind_err {ε α β : Type} (e : ε) (f : α → Except ε β) :
    ((Except.error e : Except ε α) >>= f) = .error e := rfl

/-- C8: counterexample — a `SimpleString` first element naming a known
command is rejected ("command name must be a bulk string"), refuting "a
first element of either variant selects the command family"; moreover
`COMMAND` accepts a positional argument that is no string-bearing variant,
refuting "fails with a not-a-string error when any positional argument is a
variant other than SimpleString or BulkString". -/
theorem c8_parse_counterexample :
    Command.tryFrom (.Array (some [.SimpleString "PING"])) =
      .error (.ParseError "command name must be a bulk string") ∧
    Command.tryFrom (.Array (some [.BulkString (some "COMMAND"), .Integer 5])) =
      .ok .CommandDocs :=
  ⟨rfl, rfl⟩

/-- C8 (amended): `Command::try_from` accepts every Array whose first
element is a `BulkString` naming (after case-insensitive upper-casing) a
known command with correct arity and whose positional arguments are all
string-bearing (SimpleString or non-null BulkString); when the name is not
`COMMAND` (which ignores its argument) a non-string-bearing positional
argument makes it fail with the not-a-string error; and a `SimpleString`
first element is always rejected with "command name must be a bulk
string". -/
theorem c8_parse_amended (s : String) (rest : List RespValue)
    (harity : knownArity (strUpper s) (rest.length + 1)) :
    ((∀ v ∈ rest, stringBearing v = true) →
      ∃ c, Command.tryFrom (.Array (some (.BulkString (some s) :: rest))) =
        .ok c) ∧
    ((¬ ∀ v ∈ rest, stringBearing v = true) → strUpper s ≠ "COMMAND" →
      Command.tryFrom (.Array (some (.BulkString (some s) :: rest))) =
        .error (.ParseError "expected string")) ∧
    (Command.tryFrom (.Array (some (.SimpleString s :: rest))) =
      .error (.ParseError "command name must be a bulk string")) := by
  have step : Command.tryFrom (.Array (some (.BulkString (some s) :: rest))) =
      dispatchCommand (strUpper s) (.BulkString (some s) :: rest) := rfl
  rcases harity with ⟨hn, hl⟩ | ⟨hn, hl⟩ | ⟨hn, hl⟩ | ⟨hn, hl⟩ | ⟨hn, hl⟩ |
    ⟨hn, hl⟩ | ⟨hn, hl⟩ | ⟨hn, hl⟩ | ⟨hn, hl⟩ | ⟨hn, hl⟩ | ⟨hn, hl⟩ |
    ⟨hn, hl⟩ | ⟨hn, hl⟩ | ⟨hn, hl⟩
  -- GET
  · obtain ⟨v, rfl⟩ := List.length_eq_one.mp (by omega : rest.length = 1)
    refine ⟨?_, ?_, rfl⟩
    · intro hall
      obtain ⟨sv, hsv⟩ := extract_string_ok v (hall v (by simp))
      exact ⟨.Get sv, by rw [step, hn]; simp [dispatchCommand, hsv, exbind_ok]⟩
    · intro hbad _
      have hv : stringBearing v = false := by
        cases hsv : stringBearing v
        · rfl
        · exact absurd (fun x hx => by rw [List.mem_singleton.mp hx]; exact hsv) hbad
      rw [step, hn]
      simp [dispatchCommand, extract_string_err v hv, exbind_err]
  -- MGET
  · refine ⟨?_, ?_, rfl⟩
    · intro hall
      obtain ⟨ss, hss⟩ := mapM_extract_ok rest hall
      refine ⟨.MGet ss, ?_⟩
      rw [step, hn]
      have hge : ¬ (rest.length + 1 < 2) := by omega
      have hss' : List.mapM.loop extract_string rest [] = Except.ok ss := hss
      simp [dispatchCommand, hge, hss', exbind_ok]
    · intro hbad _
      rw [step, hn]
      have hge : ¬ (rest.length + 1 < 2) := by omega
      have herr : List.mapM.loop extract_string rest [] =
          Except.error (.ParseError "expected string") := mapM_extract_err rest hbad
      simp [dispatchCommand, hge, herr, exbind_err]
  -- SET
  · obtain ⟨v₁, v₂, rfl⟩ := List.length_eq_two.mp (by omega : rest.length = 2)
    refine ⟨?_, ?_, rfl⟩
    · intro hall
      obtain ⟨s₁, hs₁⟩ := extract_string_ok v₁ (hall v₁ (by simp))
      obtain ⟨s₂, hs₂⟩ := extract_string_ok v₂ (hall v₂ (by simp))
      exact ⟨.Set s₁ s₂, by rw [step, hn]; simp [dispatchCommand, hs₁, hs₂, exbind_ok]⟩
    · intro hbad _
      rw [step, hn]
      cases h₁ : stringBearing v₁ with
      | false => simp [dispatchCommand, extract_string_err v₁ h₁, exbind_err]
      | true =>
        obtain ⟨s₁, hs₁⟩ := extract_string_ok v₁ h₁
        have h₂ : stringBearing v₂ = false := by
          cases h₂ : stringBearing v₂
          · rfl
          · refine absurd (fun x hx => ?_) hbad
            rcases List.mem_cons.mp hx with rfl | hx'
            · exact h₁
            · rw [List.mem_singleton.mp hx']; exact h₂
        simp [dispatchCommand, hs₁, extract_string_err v₂ h₂, exbind_ok, exbind_err]
  -- INCRBY
  · obtain ⟨v₁, v₂, rfl⟩ := List.length_eq_two.mp (by omega : rest.length = 2)
    refine ⟨?_, ?_, rfl⟩
    · intro hall
      obtain ⟨s₁, hs₁⟩ := extract_string_ok v₁ (hall v₁ (by simp))
      obtain ⟨s₂, hs₂⟩ := extract_string_ok v₂ (hall v₂ (by simp))
      exact ⟨.IncrBy s₁ s₂, by rw [step, hn]; simp [dispatchCommand, hs₁, hs₂, exbind_ok]⟩
    · intro hbad _
      rw [step, hn]
      cases h₁ : stringBearing v₁ with
      | false => simp [dispatchCommand, extract_string_err v₁ h₁, exbind_err]
      | true =>
        obtain ⟨s₁, hs₁⟩ := extract_string_ok v₁ h₁
        have h₂ : stringBearing v₂ = false := by
          cases h₂ : stringBearing v₂
          · rfl
          · refine absurd (fun x hx => ?_) hbad
            rcases List.mem_cons.mp hx with rfl | hx'
            · exact h₁
            · rw [List.mem_singleton.mp hx']; exact h₂
        simp [dispatchCommand, hs₁, extract_string_err v₂ h₂, exbind_ok, exbind_err]
  -- INCR
  · obtain ⟨v, rfl⟩ := List.length_eq_one.mp (by omega : rest.length = 1)
    refine ⟨?_, ?_, rfl⟩
    · intro hall
      obtain ⟨sv, hsv⟩ := extract_string_ok v (hall v (by simp))
      exact ⟨.Incr sv, by rw [step, hn]; simp [dispatchCommand, hsv, exbind_ok]⟩
    · intro hbad _
      have hv : stringBearing v = false := by
        cases hsv : stringBearing v
        · rfl
        · exact absurd (fun x hx => by rw [List.mem_singleton.mp hx]; exact hsv) hbad
      rw [step, hn]
      simp [dispatchCommand, extract_string_err v hv, exbind_err]
  -- DECRBY
  · obtain ⟨v₁, v₂, rfl⟩ := List.length_eq_two.mp (by omega : rest.length = 2)
    refine ⟨?_, ?_, rfl⟩
    · intro hall
      obtain ⟨s₁, hs₁⟩ := extract_string_ok v₁ (hall v₁ (by simp))
      obtain ⟨s₂, hs₂⟩ := extract_string_ok v₂ (hall v₂ (by simp))
      exact ⟨.DecrBy s₁ s₂, by rw [step, hn]; simp [dispatchCommand, hs₁, hs₂, exbind_ok]⟩
    · intro hbad _
      rw [step, hn]
      cases h₁ : stringBearing v₁ with
      | false => simp [dispatchCommand, extract_string_err v₁ h₁, exbind_err]
      | true =>
        obtain ⟨s₁, hs₁⟩ := extract_string_ok v₁ h₁
        have h₂ : stringBearing v₂ = false := by
          cases h₂ : stringBearing v₂
          · rfl
          · refine absurd (fun x hx => ?_) hbad
            rcases List.mem_cons.mp hx with rfl | hx'
            · exact h₁
            · rw [List.mem_singleton.mp hx']; exact h₂
        simp [dispatchCommand, hs₁, extract_string_err v₂ h₂, exbind_ok, exbind_err]
  -- DECR
  · obtain ⟨v, rfl⟩ := List.length_eq_one.mp (by omega : rest.length = 1)
    refine ⟨?_, ?_, rfl⟩
    · intro hall
      obtain ⟨sv, hsv⟩ := extract_string_ok v (hall v (by simp))
      exact ⟨.Decr sv, by rw [step, hn]; simp [dispatchCommand, hsv, exbind_ok]⟩
    · intro hbad _
      have hv : stringBearing v = false := by
        cases hsv : stringBearing v
        · rfl
        · exact absurd (fun x hx => by rw [List.mem_singleton.mp hx]; exact hsv) hbad
      rw [step, hn]
      simp [dispatchCommand, extract_string_err v hv, exbind_err]
  -- DEL
  · refine ⟨?_, ?_, rfl⟩
    · intro hall
      obtain ⟨ss, hss⟩ := mapM_extract_ok rest hall
      refine ⟨.Del ss, ?_⟩
      rw [step, hn]
      have hge : ¬ (rest.length + 1 < 2) := by omega
      have hss' : List.mapM.loop extract_string rest [] = Except.ok ss := hss
      simp [dispatchCommand, hge, hss', exbind_ok]
    · intro hbad _
      rw [step, hn]
      have hge : ¬ (rest.length + 1 < 2) := by omega
      have herr : List.mapM.loop extract_string rest [] =
          Except.error (.ParseError "expected string") := mapM_extract_err rest hbad
      simp [dispatchCommand, hge, herr, exbind_err]
  -- PING
  · obtain rfl : rest = [] := List.length_eq_zero.mp (by omega)
    refine ⟨?_, ?_, rfl⟩
    · intro _
      exact ⟨.Ping, by rw [step, hn]; simp [dispatchCommand]⟩
    · intro hbad _
      exact absurd (fun v hv => absurd hv (List.not_mem_nil v)) hbad
  -- COMMAND
  · obtain ⟨v, rfl⟩ := List.length_eq_one.mp (by omega : rest.length = 1)
    refine ⟨?_, ?_, rfl⟩
    · intro _
      exact ⟨.CommandDocs, by rw [step, hn]; simp [dispatchCommand]⟩
    · intro _ hnc
      exact absurd hn hnc
  -- EXISTS
  · refine ⟨?_, ?_, rfl⟩
    · intro hall
      obtain ⟨ss, hss⟩ := mapM_extract_ok rest hall
      refine ⟨.Exists ss, ?_⟩
      rw [step, hn]
      have hge : ¬ (rest.length + 1 < 2) := by omega
      have hss' : List.mapM.loop extract_string rest [] = Except.ok ss := hss
      simp [dispatchCommand, hge, hss', exbind_ok]
    · intro hbad _
      rw [step, hn]
      have hge : ¬ (rest.length + 1 < 2) := by omega
      have herr : List.mapM.loop extract_string rest [] =
          Except.error (.ParseError "expected string") := mapM_extract_err rest hbad
      simp [dispatchCommand, hge, herr, exbind_err]
  -- EXPIRE
  · obtain ⟨v₁, v₂, rfl⟩ := List.length_eq_two.mp (by omega : rest.length = 2)
    refine ⟨?_, ?_, rfl⟩
    · intro hall
      obtain ⟨s₁, hs₁⟩ := extract_string_ok v₁ (hall v₁ (by simp))
      obtain ⟨s₂, hs₂⟩ := extract_string_ok v₂ (hall v₂ (by simp))
      exact ⟨.Expire s₁ s₂, by rw [step, hn]; simp [dispatchCommand, hs₁, hs₂, exbind_ok]⟩
    · intro hbad _
      rw [step, hn]
      cases h₁ : stringBearing v₁ with
      | false => simp [dispatchCommand, extract_string_err v₁ h₁, exbind_err]
      | true =>
        obtain ⟨s₁, hs₁⟩ := extract_string_ok v₁ h₁
        have h₂ : stringBearing v₂ = false := by
          cases h₂ : stringBearing v₂
          · rfl
          · refine absurd (fun x hx => ?_) hbad
            rcases List.mem_cons.mp hx with rfl | hx'
            · exact h₁
            · rw [List.mem_singleton.mp hx']; exact h₂
        simp [dispatchCommand, hs₁, extract_string_err v₂ h₂, exbind_ok, exbind_err]
  -- TTL
  · obtain ⟨v, rfl⟩ := List.length_eq_one.mp (by omega : rest.length = 1)
    refine ⟨?_, ?_, rfl⟩
    · intro hall
      obtain ⟨sv, hsv⟩ := extract_string_ok v (hall v (by simp))
      exact ⟨.TTL sv, by rw [step, hn]; simp [dispatchCommand, hsv, exbind_ok]⟩
    · intro hbad _
      have hv : stringBearing v = false := by
        cases hsv : stringBearing v
        · rfl
        · exact absurd (fun x hx => by rw [List.mem_singleton.mp hx]; exact hsv) hbad
      rw [step, hn]
      simp [dispatchCommand, extract_string_err v hv, exbind_err]
  -- FLUSHALL
  · obtain rfl : rest = [] := List.length_eq_zero.mp (by omega)
    refine ⟨?_, ?_, rfl⟩
    · intro _
      exact ⟨.FlushAll, by rw [step, hn]; simp [dispatchCommand]⟩
    · intro hbad _
      exact absurd (fun v hv => absurd hv (List.not_mem_nil v)) hbad

/-- Witness for `c8_parse_amended`: a lower-case `get` name as a
`BulkString` with one string-bearing argument parses successfully. -/
theorem c8_parse_amended_witness :
    ∃ c, Command.tryFrom
      (.Array (some [.BulkString (some "get"), .SimpleString "k"])) = .ok c :=
  (c8_parse_amended "get" [.SimpleString "k"]
    (Or.inl ⟨by decide, by decide⟩)).1 (by decide)

/-! ## Line and integer-parsing lemmas for the codec -/

theorem readRawLine_append_nl (l : List Char) (h : '\n' ∉ l) (rest : List Char) :
    readRawLine (l ++ '\n' :: rest) = (l ++ ['\n'], rest) := by
  induction l with
  | nil => simp [readRawLine]
  | cons c l ih =>
    have hc : c ≠ '\n' := fun e => h (e ▸ List.mem_cons_self c l)
    have h' : '\n' ∉ l := fun hm => h (List.mem_cons_of_mem c hm)
    simp [readRawLine, hc, ih h']

theorem stripCrlfRev_of_head (m : List Char) (h : m.head? ≠ some '\n') :
    stripCrlfRev m = m := by
  match m with
  | [] => rfl
  | [a] => rfl
  | a :: b :: t =>
    have ha : a ≠ '\n' := by
      intro e
      exact h (by rw [e]; rfl)
    simp [stripCrlfRev, ha]

theorem trimEndCrlf_crlf (l : List Char) (h : '\n' ∉ l) :
    trimEndCrlf (l ++ CRLF) = l := by
  have hrev : (l ++ CRLF).reverse = '\n' :: '\r' :: l.reverse := by simp [CRLF]
  rw [trimEndCrlf, hrev]
  have hstep : stripCrlfRev ('\n' :: '\r' :: l.reverse) = stripCrlfRev l.reverse := by
    simp [stripCrlfRev]
  rw [hstep, stripCrlfRev_of_head l.reverse ?hd, List.reverse_reverse]
  case hd =>
    intro hh
    have hmem : '\n' ∈ l.reverse := by
      cases hr : l.reverse with
      | nil => rw [hr] at hh; simp at hh
      | cons a t =>
        rw [hr] at hh
        simp only [List.head?] at hh
        have : a = '\n' := by injection hh
        simp [this]
    exact h (List.mem_reverse.mp hmem)

theorem read_line_crlf (l : List Char) (h : '\n' ∉ l) (rest : List Char) :
    read_line (l ++ '\r' :: '\n' :: rest) = (l, rest) := by
  have h' : '\n' ∉ l ++ ['\r'] := by
    intro hm
    rcases List.mem_append.mp hm with hm | hm
    · exact h hm
    · simp at hm
  have hraw := readRawLine_append_nl (l ++ ['\r']) h' rest
  have heq : (l ++ ['\r']) ++ '\n' :: rest = l ++ '\r' :: '\n' :: rest := by simp
  rw [heq] at hraw
  have heq2 : (l ++ ['\r']) ++ ['\n'] = l ++ CRLF := by simp [CRLF]
  rw [read_line, hraw]
  simp only [heq2, trimEndCrlf_crlf l h]

theorem read_line_bare_lf (l : List Char) (hnl : '\n' ∉ l)
    (hcr : l.getLast? ≠ some '\r') (rest : List Char) :
    read_line (l ++ '\n' :: rest) = (l ++ ['\n'], rest) := by
  have hraw := readRawLine_append_nl l hnl rest
  rw [read_line, hraw]
  have hrev : (l ++ ['\n']).reverse = '\n' :: l.reverse := by simp
  rw [trimEndCrlf, hrev]
  cases hr : l.reverse with
  | nil =>
    have hl : l = [] := by simpa using congrArg List.reverse hr
    subst hl
    rfl
  | cons a t =>
    have ha : a ≠ '\r' := by
      intro e
      apply hcr
      rw [← List.head?_reverse, hr]
      simp [e]
    have hstep : stripCrlfRev ('\n' :: a :: t) = '\n' :: a :: t := by
      simp [stripCrlfRev, ha]
    have hl : (a :: t).reverse = l := by rw [← hr, List.reverse_reverse]
    rw [hstep]
    simp [hl]

theorem parseDigits_of_mem_nl (acc : Nat) (l : List Char) (h : '\n' ∈ l) :
    parseDigits acc l = none := by
  induction l generalizing acc with
  | nil => cases h
  | cons c cs ih =>
    rcases List.mem_cons.mp h with hc | hc
    · rw [← hc]
      simp [parseDigits, digitVal?]
    · cases hd : digitVal? c with
      | none => simp [parseDigits, hd]
      | some d => simp [parseDigits, hd, ih _ hc]

theorem parseNat?_of_mem_nl (l : List Char) (h : '\n' ∈ l) : parseNat? l = none := by
  cases l with
  | nil => cases h
  | cons c cs => exact parseDigits_of_mem_nl 0 (c :: cs) h

theorem parseI64?_of_mem_nl (l : List Char) (h : '\n' ∈ l) : parseI64? l = none := by
  cases l with
  | nil => rfl
  | cons c cs =>
    by_cases hc : c = '+'
    · subst hc
      have hcs : '\n' ∈ cs := by
        rcases List.mem_cons.mp h with h' | h'
        · exact absurd h' (by decide)
        · exact h'
      simp [parseI64?, parseNat?_of_mem_nl cs hcs]
    · by_cases hc2 : c = '-'
      · subst hc2
        have hcs : '\n' ∈ cs := by
          rcases List.mem_cons.mp h with h' | h'
          · exact absurd h' (by decide)
          · exact h'
        simp [parseI64?, parseNat?_of_mem_nl cs hcs]
      · simp [parseI64?, hc, hc2, parseNat?_of_mem_nl (c :: cs) h]

/-! ## Claims about the terminator discipline -/

/-- C7: counterexample — the scalar line of `+OK` terminated by a bare LF
(no CR) is silently accepted, and even keeps the LF inside the value,
refuting "the decoder verifies that the CRLF terminator is present and fails
with a Malformed error when it is not". -/
theorem c7_bare_lf_counterexample :
    decodeResp ("+OK\n".data) = .ok (.SimpleString "OK\n", []) := rfl

/-- C7 (amended): a line terminated by a bare LF (no CR before it) is
rejected wherever the line must parse as an integer — the integer line, the
bulk-string length line and the array length line all fail with a Malformed
parse error, because the undeleted `'\n'` makes the integer parse fail — but
simple-string and error lines perform no terminator check at all: a bare-LF
line is accepted with the LF retained in the decoded text. -/
theorem c7_terminator_amended (l rest : List Char) (hnl : '\n' ∉ l)
    (hcr : l.getLast? ≠ some '\r') :
    (read_integer (l ++ '\n' :: rest) = .error (.ParseError "Invalid integer") ∧
     read_bulk_string (l ++ '\n' :: rest) =
       .error (.ParseError "Invalid bulk string length") ∧
     ∀ fuel, read_resp (fuel + 1) ('*' :: (l ++ '\n' :: rest)) =
       .error (.ParseError "Invalid array length")) ∧
    (read_simple_string (l ++ '\n' :: rest) =
       .ok (.SimpleString (String.mk (l ++ ['\n'])), rest) ∧
     read_error (l ++ '\n' :: rest) =
       .ok (.Error (String.mk (l ++ ['\n'])), rest)) := by
  have hline := read_line_bare_lf l hnl hcr rest
  have hparse : parseI64? (l ++ ['\n']) = none :=
    parseI64?_of_mem_nl (l ++ ['\n']) (by simp)
  refine ⟨⟨?_, ?_, ?_⟩, ?_, ?_⟩
  · rw [read_integer, hline]
    simp [hparse]
  · rw [read_bulk_string, hline]
    simp [hparse]
  · intro fuel
    simp [read_resp, hline, hparse]
  · rw [read_simple_string, hline]
  · rw [read_error, hline]

/-- Witness for `c7_terminator_amended` at the concrete line `OK` (for the
scalars) / `3` (read as a length or integer line). -/
theorem c7_terminator_amended_witness :
    (read_integer (['3'] ++ '\n' :: []) = .error (.ParseError "Invalid integer") ∧
     read_bulk_string (['3'] ++ '\n' :: []) =
       .error (.ParseError "Invalid bulk string length") ∧
     ∀ fuel, read_resp (fuel + 1) ('*' :: (['3'] ++ '\n' :: [])) =
       .error (.ParseError "Invalid array length")) ∧
    (read_simple_string (['3'] ++ '\n' :: []) =
       .ok (.SimpleString (String.mk (['3'] ++ ['\n'])), []) ∧
     read_error (['3'] ++ '\n' :: []) =
       .ok (.Error (String.mk (['3'] ++ ['\n'])), [])) :=
  c7_terminator_amended ['3'] [] (by decide) (by decide)

/-! ## The round-trip property -/

mutual

/-- Constructibility plus the round-trip amendment: integer payloads lie in
the i64 range and string/array lengths below `isize::MAX` (both automatic
for any value the Rust program can build), and the `SimpleString`/`Error`
texts carry no LF (the amendment the counterexample forces). -/
def wfVal : RespValue → Bool
  | .SimpleString s => decide ('\n' ∉ s.data)
  | .Error s => decide ('\n' ∉ s.data)
  | .Integer n => decide (-(2 ^ 63) ≤ n ∧ n ≤ i64Max)
  | .BulkString none => true
  | .BulkString (some s) => decide ((s.length : Int) ≤ i64Max)
  | .Array none => true
  | .Array (some vs) => decide ((vs.length : Int) ≤ i64Max) && wfList vs

def wfList : List RespValue → Bool
  | [] => true
  | v :: vs => wfVal v && wfList vs

end

mutual

/-- Fuel-measure of a value: one per decoded value, so that `sizeVal v` fuel
suffices to decode an encoding of `v`. -/
def sizeVal : RespValue → Nat
  | .Array (some vs) => 1 + sizeList vs
  | _ => 1

def sizeList : List RespValue → Nat
  | [] => 0
  | v :: vs => 1 + sizeVal v + sizeList vs

end

theorem natDigitsAux_mem : ∀ (fuel n : Nat) (c : Char),
    c ∈ natDigitsAux fuel n → ∃ d, d < 10 ∧ c = natDigitChar d := by
  intro fuel
  induction fuel with
  | zero =>
    intro n c hc
    simp [natDigitsAux] at hc
    exact ⟨n % 10, Nat.mod_lt n (by omega), hc⟩
  | succ fuel ih =>
    intro n c hc
    by_cases h : n < 10
    · simp [natDigitsAux, h] at hc
      exact ⟨n, h, hc⟩
    · simp [natDigitsAux, h] at hc
      rcases hc with hc | hc
      · exact ih _ _ hc
      · exact ⟨n % 10, Nat.mod_lt n (by omega), hc⟩

theorem natDigitsAux_ne_nil (fuel n : Nat) : natDigitsAux fuel n ≠ [] := by
  cases fuel with
  | zero => simp [natDigitsAux]
  | succ fuel => by_cases h : n < 10 <;> simp [natDigitsAux, h]

theorem digitChar_facts (d : Nat) (h : d < 10) :
    natDigitChar d ≠ '\n' ∧ natDigitChar d ≠ '\r' ∧
    natDigitChar d ≠ '+' ∧ natDigitChar d ≠ '-' := by
  interval_cases d <;> refine ⟨by decide, by decide, by decide, by decide⟩

theorem digitVal?_natDigitChar (d : Nat) (h : d < 10) :
    digitVal? (natDigitChar d) = some d := by
  interval_cases d <;> rfl

theorem nl_not_mem_natDigitsAux (fuel n : Nat) : '\n' ∉ natDigitsAux fuel n := by
  intro hc
  obtain ⟨d, hd, he⟩ := natDigitsAux_mem fuel n _ hc
  exact (digitChar_facts d hd).1 he.symm

theorem parseDigits_append (acc : Nat) (l₁ l₂ : List Char) :
    parseDigits acc (l₁ ++ l₂) =
      match parseDigits acc l₁ with
      | some m => parseDigits m l₂
      | none => none := by
  induction l₁ generalizing acc with
  | nil => simp [parseDigits]
  | cons c cs ih =>
    cases hd : digitVal? c with
    | none => simp [parseDigits, hd]
    | some d => simp [parseDigits, hd, ih]

theorem parseDigits_natDigitsAux : ∀ fuel n : Nat, n ≤ fuel →
    parseDigits 0 (natDigitsAux fuel n) = some n := by
  intro fuel
  induction fuel with
  | zero =>
    intro n h
    have h0 : n = 0 := by omega
    subst h0
    rfl
  | succ fuel ih =>
    intro n h
    by_cases hn : n < 10
    · simp [natDigitsAux, hn, parseDigits, digitVal?_natDigitChar n hn]
    · have h1 : n / 10 ≤ fuel := by
        have := Nat.div_lt_self (by omega : 0 < n) (by omega : 1 < 10)
        omega
      rw [natDigitsAux, if_neg hn, parseDigits_append, ih (n / 10) h1]
      simp [parseDigits, digitVal?_natDigitChar (n % 10) (Nat.mod_lt n (by omega))]
      omega

theorem parseNat?_natDigits (n : Nat) : parseNat? (natDigits n) = some n := by
  have h := parseDigits_natDigitsAux n n le_rfl
  cases hnd : natDigitsAux n n with
  | nil => exact absurd hnd (natDigitsAux_ne_nil n n)
  | cons c cs =>
    rw [natDigits, hnd]
    rw [hnd] at h
    exact h

theorem head_natDigits_digit (n : Nat) :
    ∃ d cs, d < 10 ∧ natDigits n = natDigitChar d :: cs := by
  cases hnd : natDigitsAux n n with
  | nil => exact absurd hnd (natDigitsAux_ne_nil n n)
  | cons c cs =>
    have hc : c ∈ natDigitsAux n n := by rw [hnd]; exact List.mem_cons_self c cs
    obtain ⟨d, hd, he⟩ := natDigitsAux_mem n n c hc
    exact ⟨d, cs, hd, by rw [natDigits, hnd, he]⟩

theorem parseI64?_natDigits (n : Nat) (h : (n : Int) ≤ i64Max) :
    parseI64? (natDigits n) = some (n : Int) := by
  obtain ⟨d, cs, hd, hnd⟩ := head_natDigits_digit n
  have f := digitChar_facts d hd
  rw [hnd]
  simp only [parseI64?]
  rw [if_neg f.2.2.1, if_neg f.2.2.2, ← hnd, parseNat?_natDigits n]
  simp [h]

theorem parseI64?_intChars (n : Int) (h₁ : -(2 ^ 63) ≤ n) (h₂ : n ≤ i64Max) :
    parseI64? (intChars n) = some n := by
  by_cases hn : n < 0
  · rw [intChars, if_pos hn]
    have harm : parseI64? ('-' :: natDigits n.natAbs) =
        (parseNat? (natDigits n.natAbs)).bind
          fun m => if (m : Int) ≤ 2 ^ 63 then some (-(m : Int)) else none := by
      simp [parseI64?]
    have habs : (n.natAbs : Int) = -n := Int.ofNat_natAbs_of_nonpos (le_of_lt hn)
    have hb : (n.natAbs : Int) ≤ 2 ^ 63 := by rw [habs]; linarith
    rw [harm, parseNat?_natDigits]
    show (if ((n.natAbs : Int)) ≤ 2 ^ 63 then some (-(n.natAbs : Int)) else none) = some n
    rw [if_pos hb, habs, neg_neg]
  · have h0 : 0 ≤ n := by omega
    rw [intChars, if_neg hn]
    have ht : ((n.toNat : Int)) = n := Int.toNat_of_nonneg h0
    rw [show natDigits n.toNat = natDigits n.toNat from rfl,
      parseI64?_natDigits n.toNat (by rw [ht]; exact h₂), ht]

theorem nl_not_mem_intChars (n : Int) : '\n' ∉ intChars n := by
  intro hc
  rw [intChars] at hc
  by_cases hn : n < 0
  · rw [if_pos hn] at hc
    rcases List.mem_cons.mp hc with hc | hc
    · exact absurd hc (by decide)
    · exact nl_not_mem_natDigitsAux _ _ hc
  · rw [if_neg hn] at hc
    exact nl_not_mem_natDigitsAux _ _ hc

theorem sizeVal_pos (v : RespValue) : 1 ≤ sizeVal v := by
  cases v with
  | SimpleString s => simp [sizeVal]
  | Error s => simp [sizeVal]
  | Integer n => simp [sizeVal]
  | BulkString o => simp [sizeVal]
  | Array o =>
    cases o with
    | none => simp [sizeVal]
    | some vs => simp [sizeVal]

theorem read_simple_string_enc (s : String) (h : '\n' ∉ s.data) (rest : List Char) :
    read_simple_string (s.data ++ '\r' :: '\n' :: rest) = .ok (.SimpleString s, rest) := by
  simp only [read_simple_string]
  rw [read_line_crlf s.data h rest]

theorem read_error_enc (s : String) (h : '\n' ∉ s.data) (rest : List Char) :
    read_error (s.data ++ '\r' :: '\n' :: rest) = .ok (.Error s, rest) := by
  simp only [read_error]
  rw [read_line_crlf s.data h rest]

theorem read_integer_enc (n : Int) (h₁ : -(2 ^ 63) ≤ n) (h₂ : n ≤ i64Max)
    (rest : List Char) :
    read_integer (intChars n ++ '\r' :: '\n' :: rest) = .ok (.Integer n, rest) := by
  simp only [read_integer]
  rw [read_line_crlf (intChars n) (nl_not_mem_intChars n) rest]
  simp [parseI64?_intChars n h₁ h₂]

theorem read_bulk_null (rest : List Char) :
    read_bulk_string ('-' :: '1' :: '\r' :: '\n' :: rest) = .ok (.BulkString none, rest) :=
  rfl

theorem read_bulk_string_enc (s : String) (h : (s.length : Int) ≤ i64Max)
    (rest : List Char) :
    read_bulk_string
        (natDigits s.length ++ '\r' :: '\n' :: (s.data ++ '\r' :: '\n' :: rest)) =
      .ok (.BulkString (some s), rest) := by
  have hsl : s.data.length = s.length := rfl
  simp only [read_bulk_string]
  rw [read_line_crlf (natDigits s.length) (nl_not_mem_natDigitsAux s.length s.length)
    (s.data ++ '\r' :: '\n' :: rest)]
  rw [show (natDigits s.length, s.data ++ '\r' :: '\n' :: rest).1 = natDigits s.length
    from rfl]
  rw [parseI64?_natDigits s.length h]
  have h1 : ¬ ((s.length : Int) = -1) := by omega
  have h2 : ¬ ((s.length : Int) < 0) := by omega
  have h3 : ((s.length : Int)).toNat = s.length := rfl
  have hlen : s.length + 2 ≤ (s.data ++ '\r' :: '\n' :: rest).length := by
    simp only [List.length_append, List.length_cons]
    omega
  have htake : (s.data ++ '\r' :: '\n' :: rest).take (s.length + 2) =
      s.data ++ ['\r', '\n'] := by
    rw [List.take_append_eq_append_take, List.take_of_length_le (by omega),
      hsl, show s.length + 2 - s.length = 2 by omega]
    rfl
  have hdropbuf : (s.data ++ ['\r', '\n']).drop s.length = CRLF := by
    rw [List.drop_append_eq_append_drop, ← hsl, List.drop_length,
      show s.data.length - s.data.length = 0 by omega]
    rfl
  have htakebuf : (s.data ++ ['\r', '\n']).take s.length = s.data := by
    rw [List.take_append_eq_append_take, List.take_of_length_le (by omega),
      ← hsl, show s.data.length - s.data.length = 0 by omega]
    simp
  have hdrop : (s.data ++ '\r' :: '\n' :: rest).drop (s.length + 2) = rest := by
    rw [List.drop_append_eq_append_drop, List.drop_of_length_le (by omega),
      hsl, show s.length + 2 - s.length = 2 by omega]
    rfl
  simp only [h1, if_false, h2, if_neg h1, if_neg h2, h3, hlen, if_pos hlen, htake,
    hdropbuf, htakebuf, hdrop, if_pos rfl]
  rfl

/-- Decoding is a left inverse of encoding, given fuel at least the number
of values in the tree: simultaneously for one value (with any continuation
of the stream) and for the element list of an array. -/
theorem read_encode : ∀ fuel : Nat,
    (∀ v rest, wfVal v = true → sizeVal v ≤ fuel →
      read_resp fuel (encodeVal v ++ rest) = .ok (v, rest)) ∧
    (∀ vs rest, wfList vs = true → sizeList vs ≤ fuel →
      readElems fuel vs.length (encodeList vs ++ rest) = .ok (vs, rest)) := by
  intro fuel
  induction fuel with
  | zero =>
    constructor
    · intro v rest _ hs
      have := sizeVal_pos v
      omega
    · intro vs rest hw hs
      cases vs with
      | nil => rfl
      | cons v vs' =>
        simp [sizeList] at hs
  | succ fuel ih =>
    obtain ⟨ihV, ihL⟩ := ih
    constructor
    · intro v rest hw hs
      cases v with
      | SimpleString s =>
        have h : '\n' ∉ s.data := by simpa [wfVal] using hw
        rw [show encodeVal (.SimpleString s) ++ rest =
          '+' :: (s.data ++ '\r' :: '\n' :: rest) by simp [encodeVal, CRLF]]
        rw [show read_resp (fuel + 1) ('+' :: (s.data ++ '\r' :: '\n' :: rest)) =
          read_simple_string (s.data ++ '\r' :: '\n' :: rest) from rfl]
        exact read_simple_string_enc s h rest
      | Error s =>
        have h : '\n' ∉ s.data := by simpa [wfVal] using hw
        rw [show encodeVal (.Error s) ++ rest =
          '-' :: (s.data ++ '\r' :: '\n' :: rest) by simp [encodeVal, CRLF]]
        rw [show read_resp (fuel + 1) ('-' :: (s.data ++ '\r' :: '\n' :: rest)) =
          read_error (s.data ++ '\r' :: '\n' :: rest) from rfl]
        exact read_error_enc s h rest
      | Integer n =>
        have h : -(2 ^ 63) ≤ n ∧ n ≤ i64Max := by simpa [wfVal] using hw
        rw [show encodeVal (.Integer n) ++ rest =
          ':' :: (intChars n ++ '\r' :: '\n' :: rest) by simp [encodeVal, CRLF]]
        rw [show read_resp (fuel + 1) (':' :: (intChars n ++ '\r' :: '\n' :: rest)) =
          read_integer (intChars n ++ '\r' :: '\n' :: rest) from rfl]
        exact read_integer_enc n h.1 h.2 rest
      | BulkString o =>
        cases o with
        | none =>
          rw [show encodeVal (.BulkString none) ++ rest =
            '$' :: ('-' :: '1' :: '\r' :: '\n' :: rest) by simp [encodeVal, CRLF]]
          exact read_bulk_null rest
        | some s =>
          have h : (s.length : Int) ≤ i64Max := by simpa [wfVal] using hw
          rw [show encodeVal (.BulkString (some s)) ++ rest =
            '$' :: (natDigits s.length ++ '\r' :: '\n' ::
              (s.data ++ '\r' :: '\n' :: rest)) by simp [encodeVal, CRLF]]
          rw [show read_resp (fuel + 1) ('$' :: (natDigits s.length ++ '\r' :: '\n' ::
              (s.data ++ '\r' :: '\n' :: rest))) =
            read_bulk_string (natDigits s.length ++ '\r' :: '\n' ::
              (s.data ++ '\r' :: '\n' :: rest)) from rfl]
          exact read_bulk_string_enc s h rest
      | Array o =>
        cases o with
        | none =>
          rw [show encodeVal (.Array none) ++ rest =
            '*' :: ('-' :: '1' :: '\r' :: '\n' :: rest) by simp [encodeVal, CRLF]]
          rfl
        | some vs =>
          have hw' : (vs.length : Int) ≤ i64Max ∧ wfList vs = true := by
            simpa [wfVal] using hw
          have hs' : sizeList vs ≤ fuel := by
            simp only [sizeVal] at hs
            omega
          rw [show encodeVal (.Array (some vs)) ++ rest =
            '*' :: (natDigits vs.length ++ '\r' :: '\n' :: (encodeList vs ++ rest))
            by simp [encodeVal, CRLF]]
          simp only [read_resp]
          rw [read_line_crlf (natDigits vs.length)
            (nl_not_mem_natDigitsAux vs.length vs.length) (encodeList vs ++ rest)]
          simp only [parseI64?_natDigits vs.length hw'.1]
          have h1 : ¬ ((vs.length : Int) = -1) := by omega
          have h2 : ¬ ((vs.length : Int) < 0) := by omega
          have h3 : ((vs.length : Int)).toNat = vs.length := rfl
          simp only [h1, h2, if_neg h1, if_neg h2, h3,
            ihL vs rest hw'.2 hs']
          simp
    · intro vs rest hw hs
      cases vs with
      | nil => rfl
      | cons v vs' =>
        have hw' : wfVal v = true ∧ wfList vs' = true := by simpa [wfList] using hw
        have hsv : sizeVal v ≤ fuel := by
          simp only [sizeList] at hs
          omega
        have hsl : sizeList vs' ≤ fuel := by
          simp only [sizeList] at hs
          omega
        simp only [encodeList, List.length_cons, List.append_assoc]
        simp only [readElems]
        rw [ihV v (encodeList vs' ++ rest) hw'.1 hsv]
        simp [ihL vs' rest hw'.2 hsl]

/-- The encoding of a value is strictly longer than its fuel measure, so the
fuel `decodeResp` supplies always suffices. -/
theorem size_le_encode : ∀ bound : Nat,
    (∀ v, sizeVal v ≤ bound → sizeVal v + 1 ≤ (encodeVal v).length) ∧
    (∀ vs, sizeList vs ≤ bound → sizeList vs ≤ (encodeList vs).length) := by
  intro bound
  induction bound with
  | zero =>
    constructor
    · intro v hs
      have := sizeVal_pos v
      omega
    · intro vs hs
      cases vs with
      | nil => simp [sizeList, encodeList]
      | cons v vs' => simp [sizeList] at hs
  | succ bound ih =>
    obtain ⟨ihV, ihL⟩ := ih
    constructor
    · intro v hs
      cases v with
      | SimpleString s =>
        simp only [sizeVal, encodeVal, CRLF, List.length_cons, List.length_append]
        omega
      | Error s =>
        simp only [sizeVal, encodeVal, CRLF, List.length_cons, List.length_append]
        omega
      | Integer n =>
        simp only [sizeVal, encodeVal, CRLF, List.length_cons, List.length_append]
        omega
      | BulkString o =>
        cases o with
        | none =>
          simp only [sizeVal, encodeVal, CRLF, List.length_cons, List.length_append]
          omega
        | some s =>
          simp only [sizeVal, encodeVal, CRLF, List.length_cons, List.length_append]
          omega
      | Array o =>
        cases o with
        | none =>
          simp only [sizeVal, encodeVal, CRLF, List.length_cons, List.length_append]
          omega
        | some vs =>
          have hs' : sizeList vs ≤ bound := by
            simp only [sizeVal] at hs
            omega
          have := ihL vs hs'
          simp only [sizeVal, encodeVal, CRLF, List.length_cons, List.length_append]
          omega
    · intro vs hs
      cases vs with
      | nil => simp [sizeList, encodeList]
      | cons v vs' =>
        have h1 : sizeVal v ≤ bound := by
          simp only [sizeList] at hs
          omega
        have h2 : sizeList vs' ≤ bound := by
          simp only [sizeList] at hs
          omega
        have hv := ihV v h1
        have hl := ihL vs' h2
        simp only [sizeList, encodeList, List.length_append]
        omega

/-- C1: counterexample — the constructible value `SimpleString "\r\n"`
decodes from its own encoding to `SimpleString ""`, not back to itself, so
`decode(encode(v)) == v` does not hold for every constructible value. -/
theorem c1_roundtrip_counterexample :
    decodeVal (encodeVal (.SimpleString "\r\n")) = some (.SimpleString "") ∧
    RespValue.SimpleString "" ≠ RespValue.SimpleString "\r\n" := by
  refine ⟨rfl, ?_⟩
  simp

/-- C1 (amended): for every constructible Protocol Value whose
`SimpleString`/`Error` texts contain no raw LF (as the data-model invariant
already demands), decoding the bytes produced by encoding `v` consumes the
whole encoding and yields `v` again — with the `Error` tag preserved as
distinct from `SimpleString` (the two encode under different tag bytes and
decode back to their own constructors). -/
theorem c1_roundtrip_amended (v : RespValue) (hwf : wfVal v = true) :
    decodeResp (encodeVal v) = .ok (v, []) := by
  have hsz : sizeVal v + 1 ≤ (encodeVal v).length :=
    (size_le_encode (sizeVal v)).1 v le_rfl
  have h := (read_encode ((encodeVal v).length + 1)).1 v [] hwf (by omega)
  rw [decodeResp]
  simpa using h

/-- Witness for `c1_roundtrip_amended`: a nested value exercising every
constructor (Error distinct from SimpleString, negative integer, binary-safe
bulk string containing CRLF, null bulk string, null array, nested array). -/
theorem c1_roundtrip_amended_witness :
    decodeResp (encodeVal (.Array (some [.SimpleString "OK", .Error "ERR boom",
        .Integer (-5), .BulkString (some "a\r\nb"), .BulkString none,
        .Array none, .Array (some [.Integer 12])]))) =
      .ok (.Array (some [.SimpleString "OK", .Error "ERR boom",
        .Integer (-5), .BulkString (some "a\r\nb"), .BulkString none,
        .Array none, .Array (some [.Integer 12])]), []) :=
  c1_roundtrip_amended
    (.Array (some [.SimpleString "OK", .Error "ERR boom",
      .Integer (-5), .BulkString (some "a\r\nb"), .BulkString none,
      .Array none, .Array (some [.Integer 12])])) (by decide)

end Rrrr
